import Mathlib

/-!
# SHARC Tremolo: a shallow embedding of the audio engine

The embedding follows `PluginProcessor.cpp`.  Single and double precision
numbers are idealised as elements of a linearly ordered field `α` with a floor
function (`ℚ` for evaluation, `ℝ` for statements about the true sine), so
rounding is not modelled.  `std::sin` and `juce::MathConstants<float>::twoPi`
are library items that are passed in as `sin` and `twoPi`.
-/

namespace SharcTremolo

section Waveform

variable {α : Type} [LinearOrderedField α]

/-- The triangle sample of `generateWaveform`:
`(normPhase < 0.5f) ? (4.0f * normPhase - 1.0f) : (3.0f - 4.0f * normPhase)`. -/
def triangleWave (normPhase : α) : α :=
  if normPhase < 1 / 2 then 4 * normPhase - 1 else 3 - 4 * normPhase

/-- The square sample of `generateWaveform`:
`(normPhase < 0.5f) ? 1.0f : -1.0f`. -/
def squareWave (normPhase : α) : α :=
  if normPhase < 1 / 2 then 1 else -1

/-- `SharcTremoloAudioProcessor::generateWaveform(phase, shape)`, with the
constants `0.33f`, `0.34f`, `0.67f`, `0.2f` as exact fractions. -/
def generateWaveform (sin : α → α) (twoPi : α) (phase shape : α) : α :=
  let normPhase := phase / twoPi
  if shape < 33 / 100 then
    let blend := shape / (33 / 100)
    let sine := sin phase
    let triangle := triangleWave normPhase
    sine * (1 - blend) + triangle * blend
  else if shape < 67 / 100 then
    let blend := (shape - 33 / 100) / (34 / 100)
    let triangle := triangleWave normPhase
    let square := squareWave normPhase
    triangle * (1 - blend) + square * blend
  else
    let blend := (shape - 67 / 100) / (33 / 100)
    let square := squareWave normPhase
    square * (1 + blend * (2 / 10))

/-- The tremolo factor of the sample loop:
`1.0f - (currentDepth * (0.5f * lfoOut + 0.5f))`. -/
def tremFactor (currentDepth lfoOut : α) : α :=
  1 - currentDepth * (1 / 2 * lfoOut + 1 / 2)

/-- The value stored into `currentModDepth` on the last sample:
`currentDepth * std::abs(lfoOut)`. -/
def meterValue (currentDepth lfoOut : α) : α :=
  currentDepth * |lfoOut|

/-- The phase update of the sample loop:
`t += currentRate; if (t > twoPi) t -= twoPi;`. -/
def advancePhase (twoPi : α) (t currentRate : α) : α :=
  let t1 := t + currentRate
  if t1 > twoPi then t1 - twoPi else t1

end Waveform

section Engine

variable {α : Type} [LinearOrderedField α] [FloorRing α]

/-- The conversion `static_cast<juce::uint64>(x)` of a non-negative double:
truncation towards zero.  The source applies it to readings of the monotonic
millisecond counter and to differences of such readings, which are never
negative; on a negative argument (undefined in C++) the model returns 0. -/
def toUInt64 (x : α) : Nat := ⌊x⌋₊

/-- Modelled from the spec: `juce::SmoothedValue<float>`, the library's linear
parameter smoother, whose code is not under `src/`.  The fields are those of
the spec's SmoothedParameter `{current, target, stepsRemaining,
perSampleIncrement}` together with the ramp length in samples fixed by `reset`. -/
structure SmoothedValue (α : Type) where
  current : α
  target : α
  stepsRemaining : Nat
  perSampleIncrement : α
  rampSteps : Nat

namespace SmoothedValue

/-- Modelled from the spec: `setCurrentAndTargetValue(v)`; afterwards
`getNextValue` returns `v` until a new target is set. -/
def setCurrentAndTargetValue (v : SmoothedValue α) (newValue : α) : SmoothedValue α :=
  { v with target := newValue, current := newValue, stepsRemaining := 0 }

/-- Modelled from the spec: `reset(sampleRate, rampTimeSeconds)`; the ramp takes
`rampTimeSeconds` of samples at the given rate and the value stops ramping. -/
def reset (v : SmoothedValue α) (sampleRate rampLengthInSeconds : α) : SmoothedValue α :=
  setCurrentAndTargetValue
    { v with rampSteps := ⌊rampLengthInSeconds * sampleRate⌋₊ } v.target

/-- Modelled from the spec: `setTargetValue(v)`; starts a linear ramp from the
current value to the new target over the ramp length (at once when the ramp
length is zero, and nothing changes when the target is the old one). -/
def setTargetValue (v : SmoothedValue α) (newValue : α) : SmoothedValue α :=
  if newValue = v.target then v
  else if v.rampSteps = 0 then v.setCurrentAndTargetValue newValue
  else
    { v with
      target := newValue
      stepsRemaining := v.rampSteps
      perSampleIncrement := (newValue - v.current) / (v.rampSteps : α) }

/-- Modelled from the spec: `getNextValue()`; advances the ramp by one sample
and returns the new current value, which is the target once the ramp is over. -/
def getNextValue (v : SmoothedValue α) : α × SmoothedValue α :=
  if v.stepsRemaining = 0 then (v.target, v)
  else if 0 < v.stepsRemaining - 1 then
    (v.current + v.perSampleIncrement,
      { v with
        stepsRemaining := v.stepsRemaining - 1
        current := v.current + v.perSampleIncrement })
  else
    (v.target, { v with stepsRemaining := v.stepsRemaining - 1, current := v.target })

/-- The smoother's current value and target lie in `[lo, hi]`, and a ramp in
progress ends on the target. -/
def Within (lo hi : α) (v : SmoothedValue α) : Prop :=
  (lo ≤ v.current ∧ v.current ≤ hi) ∧ (lo ≤ v.target ∧ v.target ≤ hi) ∧
    (0 < v.stepsRemaining →
      v.current + (v.stepsRemaining : α) * v.perSampleIncrement = v.target)

end SmoothedValue

/-- The raw values of the four parameters held by `apvts`. -/
structure Params (α : Type) where
  RATE : α
  DEPTH : α
  SHAPE : α
  BYPASS : α

/-- A `juce::AudioBuffer<float>`: the sample count and the channels' samples. -/
structure AudioBuffer (α : Type) where
  numSamples : Nat
  channels : List (List α)

/-- Every channel of the buffer holds `numSamples` samples. -/
def AudioBuffer.WellFormed (b : AudioBuffer α) : Prop :=
  ∀ c ∈ b.channels, c.length = b.numSamples

/-- The effect of `buffer.clear(ch, startSample, numSamples)` on the samples of
channel `ch`. -/
def clear (c : List α) (startSample numSamples : Nat) : List α :=
  c.take startSample ++ List.replicate (min numSamples (c.length - startSample)) 0
    ++ c.drop (startSample + numSamples)

/-- The result of `buffer.getMagnitude(ch, startSample, numSamples)` on the samples of channel
`ch`: the largest absolute value in the region. -/
def getMagnitude (c : List α) (startSample numSamples : Nat) : α :=
  ((c.drop startSample).take numSamples).foldl (fun m x => max m |x|) 0

/-- The data members of `SharcTremoloAudioProcessor`, with the channel counts
of its bus layout. -/
structure Processor (α : Type) where
  currentSampleRate : α
  t : α
  tremoloRate : α
  lastTapTimeMs : Nat
  rateSmoothed : SmoothedValue α
  depthSmoothed : SmoothedValue α
  shapeSmoothed : SmoothedValue α
  isSilentOutput : Bool
  currentModDepth : α
  totalNumInputChannels : Nat
  totalNumOutputChannels : Nat

/-- The processor as constructed: the member initialisers of
`PluginProcessor.h` and the stereo buses of the constructor. -/
def Processor.initial : Processor α where
  currentSampleRate := 48000
  t := 0
  tremoloRate := 1 / 2
  lastTapTimeMs := 0
  rateSmoothed := ⟨0, 0, 0, 0, 0⟩
  depthSmoothed := ⟨0, 0, 0, 0, 0⟩
  shapeSmoothed := ⟨0, 0, 0, 0, 0⟩
  isSilentOutput := false
  currentModDepth := 0
  totalNumInputChannels := 2
  totalNumOutputChannels := 2

/-- `SharcTremoloAudioProcessor::prepareToPlay(sampleRate, _)`; `params` are
the raw parameter values read from `apvts`. -/
def prepareToPlay (p : Processor α) (params : Params α) (sampleRate : α) : Processor α :=
  { p with
    currentSampleRate := sampleRate
    t := 0
    rateSmoothed :=
      (p.rateSmoothed.reset sampleRate (1 / 100)).setCurrentAndTargetValue params.RATE
    depthSmoothed :=
      (p.depthSmoothed.reset sampleRate (1 / 100)).setCurrentAndTargetValue params.DEPTH
    shapeSmoothed :=
      (p.shapeSmoothed.reset sampleRate (1 / 100)).setCurrentAndTargetValue params.SHAPE }

/-- `SharcTremoloAudioProcessor::tapTempo()`; `now` is the reading of
`juce::Time::getMillisecondCounterHiRes()`. -/
def tapTempo (twoPi : α) (p : Processor α) (now : α) : Processor α :=
  let p1 :=
    if p.lastTapTimeMs > 0 then
      let deltaMs := toUInt64 (now - (p.lastTapTimeMs : α))
      if deltaMs > 50 ∧ deltaMs < 5000 then
        let periodSamples := ((deltaMs : α) / 1000) * p.currentSampleRate
        { p with tremoloRate := twoPi / periodSamples }
      else p
    else p
  { p1 with lastTapTimeMs := toUInt64 now }

/-- The flag `useTapTempo` of `processBlock`; `now` is the clock reading. -/
def useTapTempo (p : Processor α) (now : α) : Bool :=
  decide (p.lastTapTimeMs > 0 ∧ now - (p.lastTapTimeMs : α) < 2000)

/-- The local `currentRate` of one pass of the sample loop. -/
def currentRate (twoPi : α) (tap : Bool) (p : Processor α) : α :=
  if tap then p.tremoloRate
  else p.rateSmoothed.getNextValue.1 * twoPi / p.currentSampleRate

/-- The local `currentDepth` of one pass of the sample loop. -/
def currentDepth (p : Processor α) : α := p.depthSmoothed.getNextValue.1

/-- The local `currentShape` of one pass of the sample loop. -/
def currentShape (p : Processor α) : α := p.shapeSmoothed.getNextValue.1

/-- One pass `i` of the sample loop of `processBlock` over the processor and
the channels' samples.  The rate smoother only advances when tap tempo is not
in use. -/
def sampleStep (sin : α → α) (twoPi : α) (tap : Bool) (numSamples : Nat)
    (st : Processor α × List (List α)) (i : Nat) : Processor α × List (List α) :=
  let p := st.1
  let rate := currentRate twoPi tap p
  let depth := currentDepth p
  let shape := currentShape p
  let lfoOut := generateWaveform sin twoPi p.t shape
  let factor := tremFactor depth lfoOut
  ({ p with
      rateSmoothed := if tap then p.rateSmoothed else p.rateSmoothed.getNextValue.2
      depthSmoothed := p.depthSmoothed.getNextValue.2
      shapeSmoothed := p.shapeSmoothed.getNextValue.2
      t := advancePhase twoPi p.t rate
      currentModDepth :=
        if i + 1 = numSamples then meterValue depth lfoOut else p.currentModDepth },
    st.2.map (fun c => c.modify (fun x => x * factor) i))

/-- The sample loop of `processBlock`, `for (int i = 0; i < numSamples; ++i)`. -/
def sampleLoop (sin : α → α) (twoPi : α) (tap : Bool) (numSamples : Nat)
    (st : Processor α × List (List α)) : Processor α × List (List α) :=
  (List.range numSamples).foldl (sampleStep sin twoPi tap numSamples) st

/-- `SharcTremoloAudioProcessor::processBlock(buffer, midiMessages)`; `params`
are the raw parameter values and `now` the clock reading.  The MIDI buffer is
only cleared and is left out. -/
def processBlock (sin : α → α) (twoPi : α) (p : Processor α) (params : Params α) (now : α)
    (buffer : AudioBuffer α) : Processor α × AudioBuffer α :=
  let cleared : List (List α) :=
    buffer.channels.mapIdx fun i c =>
      if p.totalNumInputChannels ≤ i ∧ i < p.totalNumOutputChannels then
        clear c 0 buffer.numSamples
      else c
  let isBypassed := params.BYPASS > 1 / 2
  if isBypassed then
    ({ p with isSilentOutput := true },
      { buffer with channels := cleared.map fun c => clear c 0 buffer.numSamples })
  else
    let p1 : Processor α :=
      { p with
        rateSmoothed := p.rateSmoothed.setTargetValue params.RATE
        depthSmoothed := p.depthSmoothed.setTargetValue (params.DEPTH / 100)
        shapeSmoothed := p.shapeSmoothed.setTargetValue params.SHAPE }
    let tap := useTapTempo p now
    let r := sampleLoop sin twoPi tap buffer.numSamples (p1, cleared)
    let isBufferSilent :=
      r.2.all fun c => !decide (getMagnitude c 0 buffer.numSamples > 1 / 10000)
    ({ r.1 with isSilentOutput := isBufferSilent }, { buffer with channels := r.2 })

/-- One call of `processBlock` as the host makes it: the parameter values, the
clock reading and the block of samples. -/
structure Block (α : Type) where
  params : Params α
  now : α
  buffer : AudioBuffer α

/-- A run of successive `processBlock` calls; returns the final processor and
the processed buffers in order. -/
def processBlocks (sin : α → α) (twoPi : α) :
    Processor α → List (Block α) → Processor α × List (AudioBuffer α)
  | p, [] => (p, [])
  | p, b :: bs =>
    let r := processBlock sin twoPi p b.params b.now b.buffer
    let rs := processBlocks sin twoPi r.1 bs
    (rs.1, r.2 :: rs.2)

/-- The phase after a run of passes of the sample loop with the given
per-sample increments. -/
def phaseAfter (twoPi : α) (t : α) (rates : List α) : α :=
  rates.foldl (advancePhase twoPi) t

/-- The pure triangle wave of the parameter documentation at phase `phase`. -/
def pureTriangle (twoPi : α) (phase : α) : α :=
  let p := phase / twoPi
  if p < 1 / 2 then 4 * p - 1 else 3 - 4 * p

/-- The value of `juce::MathConstants<float>::twoPi` as a single precision
number, `13176795 / 2 ^ 21`. -/
def twoPiFloat : ℚ := 13176795 / 2097152

/-- A running processor at 48 kHz whose smoothers rest at RATE 1 Hz, depth 0.5
and SHAPE 0.5, with the initial tap rate and a tap recorded at 1000 ms. -/
def restingProcessor : Processor ℚ where
  currentSampleRate := 48000
  t := 0
  tremoloRate := 1 / 2
  lastTapTimeMs := 1000
  rateSmoothed := ⟨1, 1, 0, 0, 480⟩
  depthSmoothed := ⟨1 / 2, 1 / 2, 0, 0, 480⟩
  shapeSmoothed := ⟨1 / 2, 1 / 2, 0, 0, 480⟩
  isSilentOutput := false
  currentModDepth := 0
  totalNumInputChannels := 2
  totalNumOutputChannels := 2

/-- The parameter values at which `restingProcessor` rests, not bypassed. -/
def restingParams : Params ℚ := ⟨1, 50, 1 / 2, 0⟩

/-- The parameter defaults of `createParameterLayout`: RATE 1, DEPTH 50,
SHAPE 0, BYPASS off. -/
def defaultParams : Params α := ⟨1, 50, 0, 0⟩

end Engine

section WaveformLemmas

variable {α : Type} [LinearOrderedField α]

theorem triangleWave_bounds (p : α) (h0 : 0 ≤ p) (h1 : p ≤ 1) :
    -1 ≤ triangleWave p ∧ triangleWave p ≤ 1 := by
  unfold triangleWave
  split_ifs with h
  · constructor <;> linarith
  · push_neg at h
    constructor <;> linarith

theorem squareWave_cases (p : α) : squareWave p = 1 ∨ squareWave p = -1 := by
  unfold squareWave
  split_ifs
  · exact Or.inl rfl
  · exact Or.inr rfl

theorem normPhase_bounds (twoPi phase : α) (hpi : 0 < twoPi) (h0 : 0 ≤ phase)
    (h1 : phase ≤ twoPi) : 0 ≤ phase / twoPi ∧ phase / twoPi ≤ 1 :=
  ⟨div_nonneg h0 hpi.le, (div_le_one hpi).mpr h1⟩

/-- A blend of two values of `[-1, 1]` with weight `b ∈ [0, 1]` is in `[-1, 1]`. -/
theorem blend_bounds (x y b : α) (hx : -1 ≤ x ∧ x ≤ 1) (hy : -1 ≤ y ∧ y ≤ 1)
    (hb0 : 0 ≤ b) (hb1 : b ≤ 1) :
    -1 ≤ x * (1 - b) + y * b ∧ x * (1 - b) + y * b ≤ 1 := by
  obtain ⟨hx0, hx1⟩ := hx
  obtain ⟨hy0, hy1⟩ := hy
  have hc : 0 ≤ 1 - b := by linarith
  constructor
  · nlinarith [mul_nonneg (by linarith : 0 ≤ x + 1) hc, mul_nonneg (by linarith : 0 ≤ y + 1) hb0]
  · nlinarith [mul_nonneg (by linarith : 0 ≤ 1 - x) hc, mul_nonneg (by linarith : 0 ≤ 1 - y) hb0]

/-- Below `shape = 0.67` the waveform is a blend of unit-bounded waves. -/
theorem generateWaveform_unit (sin : α → α) (twoPi phase shape : α)
    (hsin : ∀ x, -1 ≤ sin x ∧ sin x ≤ 1) (hpi : 0 < twoPi)
    (hp0 : 0 ≤ phase) (hp1 : phase ≤ twoPi) (hs0 : 0 ≤ shape) (hs1 : shape < 67 / 100) :
    -1 ≤ generateWaveform sin twoPi phase shape ∧
      generateWaveform sin twoPi phase shape ≤ 1 := by
  have hn := normPhase_bounds twoPi phase hpi hp0 hp1
  have htri := triangleWave_bounds (phase / twoPi) hn.1 hn.2
  have hsq : -1 ≤ squareWave (phase / twoPi) ∧ squareWave (phase / twoPi) ≤ 1 := by
    rcases squareWave_cases (phase / twoPi) with h | h <;> rw [h] <;> norm_num
  unfold generateWaveform
  simp only []
  split_ifs with h1
  · apply blend_bounds _ _ _ (hsin phase) htri
    · positivity
    · rw [div_le_one (by norm_num)]; exact h1.le
  · push_neg at h1
    apply blend_bounds _ _ _ htri hsq
    · apply div_nonneg <;> linarith
    · rw [div_le_one (by norm_num)]; linarith

/-- The overall waveform bound, with the square-wave overshoot. -/
theorem generateWaveform_bounds (sin : α → α) (twoPi phase shape : α)
    (hsin : ∀ x, -1 ≤ sin x ∧ sin x ≤ 1) (hpi : 0 < twoPi)
    (hp0 : 0 ≤ phase) (hp1 : phase ≤ twoPi) (hs0 : 0 ≤ shape) (hs1 : shape ≤ 1) :
    -(12 / 10) ≤ generateWaveform sin twoPi phase shape ∧
      generateWaveform sin twoPi phase shape ≤ 12 / 10 := by
  by_cases h : shape < 67 / 100
  · have := generateWaveform_unit sin twoPi phase shape hsin hpi hp0 hp1 hs0 h
    constructor <;> linarith [this.1, this.2]
  · push_neg at h
    have h33 : ¬ shape < 33 / 100 := by push_neg; linarith
    have hb0 : 0 ≤ (shape - 67 / 100) / (33 / 100) := by
      apply div_nonneg <;> linarith
    have hb1 : (shape - 67 / 100) / (33 / 100) ≤ 1 := by
      rw [div_le_one (by norm_num)]; linarith
    unfold generateWaveform
    simp only [h33, not_lt.mpr h, if_false]
    rcases squareWave_cases (phase / twoPi) with hq | hq <;> rw [hq] <;>
      constructor <;> linarith

theorem tremFactor_bounds_of_lfo (depth lfo lo hi : α) (hd0 : 0 ≤ depth)
    (hlo : lo ≤ lfo) (hhi : lfo ≤ hi) :
    1 - depth * (1 / 2 * hi + 1 / 2) ≤ tremFactor depth lfo ∧
      tremFactor depth lfo ≤ 1 - depth * (1 / 2 * lo + 1 / 2) := by
  unfold tremFactor
  constructor
  · nlinarith [mul_nonneg hd0 (sub_nonneg.mpr hhi)]
  · nlinarith [mul_nonneg hd0 (sub_nonneg.mpr hlo)]

theorem abs_mul_le_of_unit (x f : α) (h0 : 0 ≤ f) (h1 : f ≤ 1) : |x * f| ≤ |x| := by
  rw [abs_mul, abs_of_nonneg h0]
  exact mul_le_of_le_one_right (abs_nonneg x) h1

end WaveformLemmas

section WaveformBounds

variable {α : Type} [LinearOrderedField α]

/-- C7: for every shape in [0,1] and every phase in [0, 2π), with a sine that
takes values in [-1,1], `generateWaveform phase shape` lies in [-1.2, 1.2]. -/
theorem generateWaveform_range (sin : α → α) (twoPi phase shape : α)
    (hsin : ∀ x, -1 ≤ sin x ∧ sin x ≤ 1) (hpi : 0 < twoPi)
    (hp0 : 0 ≤ phase) (hp1 : phase < twoPi) (hs0 : 0 ≤ shape) (hs1 : shape ≤ 1) :
    -(12 / 10) ≤ generateWaveform sin twoPi phase shape ∧
      generateWaveform sin twoPi phase shape ≤ 12 / 10 :=
  generateWaveform_bounds sin twoPi phase shape hsin hpi hp0 hp1.le hs0 hs1

/-- Witness of C7 at the real sine, 2π, phase 1 and shape 1. -/
theorem generateWaveform_range_witness :
    -(12 / 10) ≤ generateWaveform Real.sin (2 * Real.pi) 1 1 ∧
      generateWaveform Real.sin (2 * Real.pi) 1 1 ≤ 12 / 10 :=
  generateWaveform_range Real.sin (2 * Real.pi) 1 1
    (fun x => ⟨Real.neg_one_le_sin x, Real.sin_le_one x⟩)
    (by positivity) (by norm_num) (by linarith [Real.pi_gt_three]) (by norm_num) (by norm_num)

/-- C1, refuted as stated: at depth 1, shape 1 and phase 4 (in the second half
of the period) the waveform is -1.2, the tremolo factor is 1.1 > 1 and the
sample 1 is amplified to 1.1. -/
theorem tremFactor_counterexample :
    (0 : ℝ) ≤ 4 ∧ (4 : ℝ) < 2 * Real.pi ∧
      tremFactor 1 (generateWaveform Real.sin (2 * Real.pi) 4 1) = 11 / 10 ∧
      ¬ tremFactor 1 (generateWaveform Real.sin (2 * Real.pi) 4 1) ≤ 1 ∧
      ¬ |1 * tremFactor 1 (generateWaveform Real.sin (2 * Real.pi) 4 1)| ≤ |(1 : ℝ)| := by
  have hpi3 := Real.pi_gt_three
  have hpi4 := Real.pi_le_four
  have hpos : (0 : ℝ) < 2 * Real.pi := by positivity
  have hn : ¬ (4 : ℝ) / (2 * Real.pi) < 1 / 2 := by
    rw [not_lt, le_div_iff₀ hpos]
    linarith
  have hw : generateWaveform Real.sin (2 * Real.pi) 4 1 = -(12 / 10) := by
    simp only [generateWaveform, squareWave, if_neg hn]
    norm_num
  rw [hw]
  refine ⟨by norm_num, by linarith, ?_, ?_, ?_⟩
  · norm_num [tremFactor]
  · norm_num [tremFactor]
  · norm_num [tremFactor, abs_of_pos]

/-- C1, amended: for depth and shape in [0,1] and phase in [0, 2π) the tremolo
factor lies in [1 - 1.1·depth, 1 + 0.1·depth]; when shape < 0.67 it lies in
[1 - depth, 1], so that no sample is amplified. -/
theorem tremFactor_range (sin : α → α) (twoPi depth shape phase : α)
    (hsin : ∀ x, -1 ≤ sin x ∧ sin x ≤ 1) (hpi : 0 < twoPi)
    (hd0 : 0 ≤ depth) (hd1 : depth ≤ 1) (hs0 : 0 ≤ shape) (hs1 : shape ≤ 1)
    (hp0 : 0 ≤ phase) (hp1 : phase < twoPi) :
    (1 - 11 / 10 * depth ≤ tremFactor depth (generateWaveform sin twoPi phase shape) ∧
      tremFactor depth (generateWaveform sin twoPi phase shape) ≤ 1 + 1 / 10 * depth) ∧
    (shape < 67 / 100 →
      1 - depth ≤ tremFactor depth (generateWaveform sin twoPi phase shape) ∧
      tremFactor depth (generateWaveform sin twoPi phase shape) ≤ 1 ∧
      ∀ x : α, |x * tremFactor depth (generateWaveform sin twoPi phase shape)| ≤ |x|) := by
  constructor
  · have hw := generateWaveform_bounds sin twoPi phase shape hsin hpi hp0 hp1.le hs0 hs1
    have hf := tremFactor_bounds_of_lfo depth _ _ _ hd0 hw.1 hw.2
    constructor <;> linarith [hf.1, hf.2]
  · intro hs
    have hw := generateWaveform_unit sin twoPi phase shape hsin hpi hp0 hp1.le hs0 hs
    have hf := tremFactor_bounds_of_lfo depth _ _ _ hd0 hw.1 hw.2
    have h1 : 1 - depth ≤ tremFactor depth (generateWaveform sin twoPi phase shape) := by
      linarith [hf.1]
    have h2 : tremFactor depth (generateWaveform sin twoPi phase shape) ≤ 1 := by
      linarith [hf.2]
    exact ⟨h1, h2, fun x => abs_mul_le_of_unit x _ (by linarith) h2⟩

/-- Witness of the amended C1 at the real sine, 2π, depth 1/2, shape 1/2 and
phase 1. -/
theorem tremFactor_range_witness :
    (1 - 11 / 10 * (1 / 2) ≤
        tremFactor (1 / 2) (generateWaveform Real.sin (2 * Real.pi) 1 (1 / 2)) ∧
      tremFactor (1 / 2) (generateWaveform Real.sin (2 * Real.pi) 1 (1 / 2)) ≤
        1 + 1 / 10 * (1 / 2)) ∧
    ((1 / 2 : ℝ) < 67 / 100 →
      1 - 1 / 2 ≤ tremFactor (1 / 2) (generateWaveform Real.sin (2 * Real.pi) 1 (1 / 2)) ∧
      tremFactor (1 / 2) (generateWaveform Real.sin (2 * Real.pi) 1 (1 / 2)) ≤ 1 ∧
      ∀ x : ℝ,
        |x * tremFactor (1 / 2) (generateWaveform Real.sin (2 * Real.pi) 1 (1 / 2))| ≤ |x|) :=
  tremFactor_range Real.sin (2 * Real.pi) (1 / 2) (1 / 2) 1
    (fun x => ⟨Real.neg_one_le_sin x, Real.sin_le_one x⟩)
    (by positivity) (by norm_num) (by norm_num) (by norm_num) (by norm_num) (by norm_num)
    (by linarith [Real.pi_gt_three])

/-- C8, refuted as stated: at depth 1, shape 1 and phase 0 the metering value
is 1.2 > 1. -/
theorem meterValue_counterexample :
    (0 : ℝ) ≤ 0 ∧ (0 : ℝ) < 2 * Real.pi ∧
      meterValue 1 (generateWaveform Real.sin (2 * Real.pi) 0 1) = 12 / 10 ∧
      ¬ meterValue 1 (generateWaveform Real.sin (2 * Real.pi) 0 1) ≤ 1 := by
  have hw : generateWaveform Real.sin (2 * Real.pi) 0 1 = 12 / 10 := by
    norm_num [generateWaveform, squareWave]
  rw [hw]
  refine ⟨le_refl _, by positivity, ?_, ?_⟩
  · norm_num [meterValue, abs_of_pos]
  · norm_num [meterValue, abs_of_pos]

/-- C8, amended: for depth and shape in [0,1] and phase in [0, 2π) the value
stored into `currentModDepth` lies in [0, 1.2·depth]; when shape < 0.67 it is
at most depth, hence in [0,1]. -/
theorem meterValue_range (sin : α → α) (twoPi depth shape phase : α)
    (hsin : ∀ x, -1 ≤ sin x ∧ sin x ≤ 1) (hpi : 0 < twoPi)
    (hd0 : 0 ≤ depth) (hd1 : depth ≤ 1) (hs0 : 0 ≤ shape) (hs1 : shape ≤ 1)
    (hp0 : 0 ≤ phase) (hp1 : phase < twoPi) :
    0 ≤ meterValue depth (generateWaveform sin twoPi phase shape) ∧
      meterValue depth (generateWaveform sin twoPi phase shape) ≤ 12 / 10 * depth ∧
      (shape < 67 / 100 →
        meterValue depth (generateWaveform sin twoPi phase shape) ≤ depth ∧
        meterValue depth (generateWaveform sin twoPi phase shape) ≤ 1) := by
  have hw := generateWaveform_bounds sin twoPi phase shape hsin hpi hp0 hp1.le hs0 hs1
  have habs : |generateWaveform sin twoPi phase shape| ≤ 12 / 10 := abs_le.mpr hw
  unfold meterValue
  refine ⟨mul_nonneg hd0 (abs_nonneg _), ?_, ?_⟩
  · nlinarith [mul_le_mul_of_nonneg_left habs hd0]
  · intro hs
    have hu := generateWaveform_unit sin twoPi phase shape hsin hpi hp0 hp1.le hs0 hs
    have hu1 : |generateWaveform sin twoPi phase shape| ≤ 1 := abs_le.mpr hu
    have := mul_le_mul_of_nonneg_left hu1 hd0
    constructor <;> linarith

/-- Witness of the amended C8 at the real sine, 2π, depth 1, shape 1 and
phase 1. -/
theorem meterValue_range_witness :
    0 ≤ meterValue 1 (generateWaveform Real.sin (2 * Real.pi) 1 1) ∧
      meterValue 1 (generateWaveform Real.sin (2 * Real.pi) 1 1) ≤ 12 / 10 * 1 ∧
      ((1 : ℝ) < 67 / 100 →
        meterValue 1 (generateWaveform Real.sin (2 * Real.pi) 1 1) ≤ 1 ∧
        meterValue 1 (generateWaveform Real.sin (2 * Real.pi) 1 1) ≤ 1) :=
  meterValue_range Real.sin (2 * Real.pi) 1 1 1
    (fun x => ⟨Real.neg_one_le_sin x, Real.sin_le_one x⟩)
    (by positivity) (by norm_num) (by norm_num) (by norm_num) (by norm_num) (by norm_num)
    (by linarith [Real.pi_gt_three])

/-- C9, where the code departs from its parameter documentation: at SHAPE 0.5
and phase 0 `generateWaveform` returns 0, half way between the triangle's -1
and the square's 1, and not the pure triangle's -1; the pure triangle is
returned at SHAPE 0.33. -/
theorem generateWaveform_half_not_triangle :
    generateWaveform Real.sin (2 * Real.pi) 0 (1 / 2) = 0 ∧
      pureTriangle (2 * Real.pi) 0 = -1 ∧
      generateWaveform Real.sin (2 * Real.pi) 0 (1 / 2) ≠ pureTriangle (2 * Real.pi) 0 ∧
      ∀ phase : ℝ,
        generateWaveform Real.sin (2 * Real.pi) phase (33 / 100) =
          pureTriangle (2 * Real.pi) phase := by
  have h1 : generateWaveform Real.sin (2 * Real.pi) 0 (1 / 2) = 0 := by
    norm_num [generateWaveform, triangleWave, squareWave]
  have h2 : pureTriangle (2 * Real.pi) 0 = -1 := by
    norm_num [pureTriangle]
  refine ⟨h1, h2, by rw [h1, h2]; norm_num, ?_⟩
  intro phase
  norm_num [generateWaveform, triangleWave, squareWave, pureTriangle]

/-- One phase update keeps the phase in the closed interval `[0, twoPi]`. -/
theorem advancePhase_mem (twoPi t rate : α) (h0 : 0 ≤ t) (h1 : t ≤ twoPi)
    (hr0 : 0 ≤ rate) (hr1 : rate < twoPi) :
    0 ≤ advancePhase twoPi t rate ∧ advancePhase twoPi t rate ≤ twoPi := by
  unfold advancePhase
  simp only []
  split_ifs with h
  · constructor <;> linarith
  · push_neg at h
    constructor <;> linarith

/-- A run of phase updates keeps the phase in the closed interval. -/
theorem phaseAfter_mem (twoPi : α) (rates : List α) :
    ∀ t : α, 0 ≤ t → t ≤ twoPi → (∀ r ∈ rates, 0 ≤ r ∧ r < twoPi) →
      0 ≤ phaseAfter twoPi t rates ∧ phaseAfter twoPi t rates ≤ twoPi := by
  induction rates with
  | nil => intro t h0 h1 _; exact ⟨h0, h1⟩
  | cons r rs ih =>
    intro t h0 h1 hr
    have hr1 := hr r (List.mem_cons_self r rs)
    have hstep := advancePhase_mem twoPi t r h0 h1 hr1.1 hr1.2
    have := ih (advancePhase twoPi t r) hstep.1 hstep.2
      (fun x hx => hr x (List.mem_cons_of_mem r hx))
    simpa [phaseAfter] using this

/-- The phase written by a pass of the sample loop is the phase update of the
old phase by that pass's `currentRate`. -/
theorem sampleStep_t (sin : α → α) (twoPi : α) (tap : Bool) (n i : Nat) (p : Processor α)
    (cs : List (List α)) :
    (sampleStep sin twoPi tap n (p, cs) i).1.t =
      advancePhase twoPi p.t (currentRate twoPi tap p) := rfl

/-- C10, refuted as stated: from phase π with increment π the updated phase is
2π itself, which the test `t > twoPi` does not wrap, so it is not below 2π. -/
theorem advancePhase_counterexample :
    (0 : ℝ) ≤ Real.pi ∧ Real.pi < 2 * Real.pi ∧
      advancePhase (2 * Real.pi) Real.pi Real.pi = 2 * Real.pi ∧
      ¬ advancePhase (2 * Real.pi) Real.pi Real.pi < 2 * Real.pi := by
  have hpos := Real.pi_pos
  have h : advancePhase (2 * Real.pi) Real.pi Real.pi = 2 * Real.pi := by
    unfold advancePhase
    simp only []
    rw [if_neg (by linarith)]
    ring
  exact ⟨hpos.le, by linarith, h, by rw [h]; exact lt_irrefl _⟩

/-- C10, amended: for a phase t in [0, 2π] and an increment in [0, 2π) the
updated phase lies in [0, 2π], and is below 2π unless t + currentRate is
exactly 2π; hence after any run of such increments from the phase 0 of
`prepareToPlay` the phase lies in [0, 2π]. -/
theorem advancePhase_range (twoPi t rate : α) (rates : List α) (hpi : 0 < twoPi)
    (h0 : 0 ≤ t) (h1 : t ≤ twoPi) (hr0 : 0 ≤ rate) (hr1 : rate < twoPi)
    (hrs : ∀ r ∈ rates, 0 ≤ r ∧ r < twoPi) :
    (0 ≤ advancePhase twoPi t rate ∧ advancePhase twoPi t rate ≤ twoPi) ∧
      (t + rate ≠ twoPi → advancePhase twoPi t rate < twoPi) ∧
      (0 ≤ phaseAfter twoPi 0 rates ∧ phaseAfter twoPi 0 rates ≤ twoPi) := by
  refine ⟨advancePhase_mem twoPi t rate h0 h1 hr0 hr1, ?_,
    phaseAfter_mem twoPi rates 0 le_rfl hpi.le hrs⟩
  intro hne
  unfold advancePhase
  simp only []
  split_ifs with h
  · linarith
  · push_neg at h
    exact lt_of_le_of_ne h hne

/-- Witness of the amended C10 over the rationals, with the single precision
value of 2π, phase 6, increment 1 and the run of increments 1, 6, 6. -/
theorem advancePhase_range_witness :
    (0 ≤ advancePhase twoPiFloat 6 1 ∧ advancePhase twoPiFloat 6 1 ≤ twoPiFloat) ∧
      ((6 : ℚ) + 1 ≠ twoPiFloat → advancePhase twoPiFloat 6 1 < twoPiFloat) ∧
      (0 ≤ phaseAfter twoPiFloat 0 [1, 6, 6] ∧ phaseAfter twoPiFloat 0 [1, 6, 6] ≤ twoPiFloat) :=
  advancePhase_range twoPiFloat 6 1 [1, 6, 6] (by norm_num [twoPiFloat]) (by norm_num)
    (by norm_num [twoPiFloat]) (by norm_num) (by norm_num [twoPiFloat])
    (by
      intro r hr
      simp only [List.mem_cons, List.mem_singleton, List.not_mem_nil, or_false] at hr
      rcases hr with h | h | h <;> subst h <;> norm_num [twoPiFloat])

end WaveformBounds

section TapTempo

variable {α : Type} [LinearOrderedField α] [FloorRing α]

/-- A tap that finds no previous tap, or a whole-millisecond delta outside
`(50, 5000)`, only records its timestamp. -/
theorem tapTempo_of_rejected (twoPi : α) (p : Processor α) (now : α)
    (h : p.lastTapTimeMs = 0 ∨ toUInt64 (now - (p.lastTapTimeMs : α)) ≤ 50 ∨
      5000 ≤ toUInt64 (now - (p.lastTapTimeMs : α))) :
    tapTempo twoPi p now = { p with lastTapTimeMs := toUInt64 now } := by
  unfold tapTempo
  simp only []
  rcases h with h | h | h
  · rw [if_neg (by omega)]
  · split_ifs with h1 h2
    · omega
    · rfl
    · rfl
  · split_ifs with h1 h2
    · omega
    · rfl
    · rfl

/-- A tap that finds a previous tap and a whole-millisecond delta inside
`(50, 5000)` sets the rate from that delta. -/
theorem tapTempo_of_accepted (twoPi : α) (p : Processor α) (now : α)
    (hprev : 0 < p.lastTapTimeMs) (hlo : 50 < toUInt64 (now - (p.lastTapTimeMs : α)))
    (hhi : toUInt64 (now - (p.lastTapTimeMs : α)) < 5000) :
    tapTempo twoPi p now =
      { p with
        tremoloRate :=
          twoPi / (((toUInt64 (now - (p.lastTapTimeMs : α)) : α) / 1000) * p.currentSampleRate)
        lastTapTimeMs := toUInt64 now } := by
  unfold tapTempo
  simp only []
  rw [if_pos hprev, if_pos ⟨hlo, hhi⟩]

/-- The whole-millisecond delta the code computes is outside `(50, 5000)` as
soon as the delta of the clock readings is at most 50 or at least 5000. -/
theorem delta_rejected (t1 now : α) (h0 : 0 ≤ t1)
    (h : now - t1 ≤ 50 ∨ 5000 ≤ now - t1) :
    toUInt64 (now - ((toUInt64 t1 : Nat) : α)) ≤ 50 ∨
      5000 ≤ toUInt64 (now - ((toUInt64 t1 : Nat) : α)) := by
  unfold toUInt64
  have hfl : ((⌊t1⌋₊ : Nat) : α) ≤ t1 := Nat.floor_le h0
  have hlt : t1 < ((⌊t1⌋₊ : Nat) : α) + 1 := Nat.lt_floor_add_one t1
  rcases h with h | h
  · left
    have h51 : ⌊now - ((⌊t1⌋₊ : Nat) : α)⌋₊ < 51 := by
      rw [Nat.floor_lt' (by norm_num)]
      push_cast
      linarith
    omega
  · right
    apply Nat.le_floor
    push_cast
    linarith

/-- C4, refuted as stated: with sample rate 48000, a tap recorded at 1000 ms
and a second tap at 1500.5 ms, the code truncates the delta to 500 ms and sets
the rate to 2π/(0.5·48000), not to 2π/(0.5005·48000). -/
theorem tapTempo_counterexample :
    ((0 : ℚ) < 48000 ∧ (50 : ℚ) < 3001 / 2 - 1000 ∧ (3001 / 2 - 1000 : ℚ) < 5000) ∧
      (tapTempo twoPiFloat
          { (Processor.initial : Processor ℚ) with lastTapTimeMs := toUInt64 (1000 : ℚ) }
          (3001 / 2)).tremoloRate = twoPiFloat / (1 / 2 * 48000) ∧
      (tapTempo twoPiFloat
          { (Processor.initial : Processor ℚ) with lastTapTimeMs := toUInt64 (1000 : ℚ) }
          (3001 / 2)).tremoloRate ≠ twoPiFloat / (((3001 / 2 - 1000) / 1000) * 48000) := by
  have hL : toUInt64 (1000 : ℚ) = 1000 := by
    unfold toUInt64
    exact Nat.floor_ofNat 1000
  have hd : toUInt64 ((3001 / 2 : ℚ) - ((1000 : Nat) : ℚ)) = 500 := by
    unfold toUInt64
    rw [Nat.floor_eq_iff (by norm_num)]
    norm_num
  have hr : (tapTempo twoPiFloat
      { (Processor.initial : Processor ℚ) with lastTapTimeMs := toUInt64 (1000 : ℚ) }
      (3001 / 2)).tremoloRate = twoPiFloat / (1 / 2 * 48000) := by
    rw [hL, tapTempo_of_accepted _ _ _ (by norm_num) (by simp only [hd]; norm_num)
      (by simp only [hd]; norm_num)]
    simp only [hd, Processor.initial]
    norm_num
  refine ⟨by norm_num, hr, ?_⟩
  rw [hr]
  norm_num [twoPiFloat]

/-- When the readings are a whole number of milliseconds apart, the
whole-millisecond delta the code computes is that number. -/
theorem delta_of_whole (t1 t2 : α) (n : Nat) (h0 : 0 ≤ t1) (h : t2 - t1 = (n : α)) :
    toUInt64 (t2 - ((toUInt64 t1 : Nat) : α)) = n := by
  unfold toUInt64
  have hfl : ((⌊t1⌋₊ : Nat) : α) ≤ t1 := Nat.floor_le h0
  have hlt : t1 < ((⌊t1⌋₊ : Nat) : α) + 1 := Nat.lt_floor_add_one t1
  have hn : (0 : α) ≤ (n : α) := Nat.cast_nonneg n
  rw [Nat.floor_eq_iff (by linarith)]
  constructor <;> linarith

/-- C4, amended: when the previous tap was recorded from a reading t1 ≥ 1 and
the whole-millisecond delta d = ⌊t2 - ⌊t1⌋⌋ satisfies 50 < d < 5000, the second
tap sets `tremoloRate` to 2π / ((d/1000)·sr); when t2 - t1 is a whole number of
milliseconds this is 2π / (((t2 - t1)/1000)·sr), and for two taps 500 ms apart
it is 2π/(0.5·sr). -/
theorem tapTempo_rate (twoPi : α) (p : Processor α) (t1 t2 : α)
    (_hsr : 0 < p.currentSampleRate) (h1 : 1 ≤ t1) (hrec : p.lastTapTimeMs = toUInt64 t1)
    (hlo : 50 < toUInt64 (t2 - ((toUInt64 t1 : Nat) : α)))
    (hhi : toUInt64 (t2 - ((toUInt64 t1 : Nat) : α)) < 5000) :
    (tapTempo twoPi p t2).tremoloRate =
        twoPi / (((toUInt64 (t2 - ((toUInt64 t1 : Nat) : α)) : α) / 1000)
          * p.currentSampleRate) ∧
      ((∃ n : Nat, t2 - t1 = (n : α)) →
        (tapTempo twoPi p t2).tremoloRate =
          twoPi / (((t2 - t1) / 1000) * p.currentSampleRate)) ∧
      (t2 - t1 = 500 →
        (tapTempo twoPi p t2).tremoloRate = twoPi / (1 / 2 * p.currentSampleRate)) := by
  have h0 : 0 ≤ t1 := le_trans zero_le_one h1
  have hprev : 0 < p.lastTapTimeMs := by
    rw [hrec]
    exact Nat.floor_pos.mpr h1
  have hrate : (tapTempo twoPi p t2).tremoloRate =
      twoPi / (((toUInt64 (t2 - ((toUInt64 t1 : Nat) : α)) : α) / 1000)
        * p.currentSampleRate) := by
    rw [tapTempo_of_accepted twoPi p t2 hprev (by rw [hrec]; exact hlo)
      (by rw [hrec]; exact hhi), hrec]
  refine ⟨hrate, ?_, ?_⟩
  · rintro ⟨n, hn⟩
    rw [hrate, delta_of_whole t1 t2 n h0 hn, hn]
  · intro h500
    have hn : t2 - t1 = ((500 : Nat) : α) := by
      rw [h500]
      norm_num
    rw [hrate, delta_of_whole t1 t2 500 h0 hn]
    norm_num

/-- Witness of the amended C4 over the rationals: sample rate 48000 and taps
at 1000 ms and 1500 ms, 500 ms apart, give the rate 2π/(0.5·48000). -/
theorem tapTempo_rate_witness :
    (1 : ℚ) ≤ 1000 ∧
      (tapTempo twoPiFloat
          { (Processor.initial : Processor ℚ) with lastTapTimeMs := toUInt64 (1000 : ℚ) }
          1500).tremoloRate = twoPiFloat / (1 / 2 * 48000) := by
  have hL : toUInt64 (1000 : ℚ) = 1000 := by
    unfold toUInt64
    exact Nat.floor_ofNat 1000
  have h500 : (1500 : ℚ) - ((toUInt64 (1000 : ℚ) : Nat) : ℚ) = 500 := by
    rw [hL]
    norm_num
  have hd : toUInt64 ((1500 : ℚ) - ((toUInt64 (1000 : ℚ) : Nat) : ℚ)) = 500 := by
    rw [h500]
    unfold toUInt64
    exact Nat.floor_ofNat 500
  have hapart : (1500 : ℚ) - 1000 = 500 := by norm_num
  exact ⟨by norm_num,
    (tapTempo_rate twoPiFloat
      { (Processor.initial : Processor ℚ) with lastTapTimeMs := toUInt64 (1000 : ℚ) }
      1000 1500 (by norm_num [Processor.initial]) (by norm_num) rfl
      (by rw [hd]; norm_num) (by rw [hd]; norm_num)).2.2 hapart⟩

/-- The code rejects a tap that finds no previous tap, or whose clock reading
is at most 50 ms or at least 5000 ms after the reading recorded before. -/
theorem rejected_of_readings (p : Processor α) (t1 now : α)
    (h : p.lastTapTimeMs = 0 ∨
      (p.lastTapTimeMs = toUInt64 t1 ∧ (now - t1 ≤ 50 ∨ 5000 ≤ now - t1))) :
    p.lastTapTimeMs = 0 ∨ toUInt64 (now - (p.lastTapTimeMs : α)) ≤ 50 ∨
      5000 ≤ toUInt64 (now - (p.lastTapTimeMs : α)) := by
  rcases h with h | ⟨hrec, hd⟩
  · exact Or.inl h
  · by_cases h0 : 0 ≤ t1
    · right
      rw [hrec]
      exact delta_rejected t1 now h0 hd
    · left
      rw [hrec]
      unfold toUInt64
      exact Nat.floor_of_nonpos (le_of_not_le h0)

/-- C5: a tap that finds no previous tap, or whose clock reading is at most
50 ms or at least 5000 ms after the reading t1 recorded by the previous tap,
leaves `tremoloRate` as it was. -/
theorem tapTempo_rate_unchanged (twoPi : α) (p : Processor α) (t1 now : α)
    (h : p.lastTapTimeMs = 0 ∨
      (p.lastTapTimeMs = toUInt64 t1 ∧ (now - t1 ≤ 50 ∨ 5000 ≤ now - t1))) :
    (tapTempo twoPi p now).tremoloRate = p.tremoloRate := by
  rw [tapTempo_of_rejected twoPi p now (rejected_of_readings p t1 now h)]

/-- Witness of C5 over the rationals: a tap at 1010 ms, 10 ms after a tap
recorded at 1000 ms, leaves the rate at its initial 0.5. -/
theorem tapTempo_rate_unchanged_witness :
    (tapTempo twoPiFloat
        { (Processor.initial : Processor ℚ) with lastTapTimeMs := toUInt64 (1000 : ℚ) }
        1010).tremoloRate = 1 / 2 :=
  tapTempo_rate_unchanged twoPiFloat
    { (Processor.initial : Processor ℚ) with lastTapTimeMs := toUInt64 (1000 : ℚ) }
    1000 1010 (Or.inr ⟨rfl, Or.inl (by norm_num)⟩)

end TapTempo

section Buffers

variable {α : Type} [LinearOrderedField α]

theorem length_clear (c : List α) (n : Nat) : (clear c 0 n).length = c.length := by
  simp only [clear, List.take_zero, List.nil_append, List.length_append, List.length_replicate,
    List.length_drop, Nat.sub_zero, Nat.zero_add]
  omega

/-- Clearing a whole channel leaves only zeros. -/
theorem clear_all (c : List α) (n : Nat) (h : c.length = n) :
    clear c 0 n = List.replicate n 0 := by
  simp [clear, h]

/-- The clearing of the unused output channels keeps the buffer well formed. -/
theorem length_of_mem_cleared (lo hi n : Nat) (channels : List (List α))
    (hwf : ∀ c ∈ channels, c.length = n) :
    ∀ c ∈ channels.mapIdx (fun i c => if lo ≤ i ∧ i < hi then clear c 0 n else c),
      c.length = n := by
  intro c hc
  rw [List.mem_mapIdx] at hc
  obtain ⟨i, hi, rfl⟩ := hc
  have hmem : channels[i] ∈ channels := List.getElem_mem hi
  split_ifs
  · rw [length_clear]; exact hwf _ hmem
  · exact hwf _ hmem

end Buffers

section Bypass

variable {α : Type} [LinearOrderedField α]

/-- The bypass branch of `processBlock`. -/
theorem processBlock_of_bypass (sin : α → α) (twoPi : α) (p : Processor α) (params : Params α)
    (now : α) (buffer : AudioBuffer α) (hb : 1 / 2 < params.BYPASS) :
    processBlock sin twoPi p params now buffer =
      ({ p with isSilentOutput := true },
        { buffer with
          channels :=
            (buffer.channels.mapIdx fun i c =>
              if p.totalNumInputChannels ≤ i ∧ i < p.totalNumOutputChannels then
                clear c 0 buffer.numSamples
              else c).map fun c => clear c 0 buffer.numSamples }) := by
  have hgt : params.BYPASS > 1 / 2 := hb
  simp only [processBlock, hgt, if_true]

/-- C3: with BYPASS set, `processBlock` turns every channel of a well-formed
buffer into `numSamples` zeros and leaves the phase, the three smoothers,
`tremoloRate` and `lastTapTimeMs` as they were. -/
theorem processBlock_bypass (sin : α → α) (twoPi : α) (p : Processor α) (params : Params α)
    (now : α) (buffer : AudioBuffer α) (hb : 1 / 2 < params.BYPASS)
    (hwf : buffer.WellFormed) :
    ((processBlock sin twoPi p params now buffer).2.numSamples = buffer.numSamples ∧
      (processBlock sin twoPi p params now buffer).2.channels.length = buffer.channels.length ∧
      ∀ c ∈ (processBlock sin twoPi p params now buffer).2.channels,
        c = List.replicate buffer.numSamples 0) ∧
    (processBlock sin twoPi p params now buffer).1.t = p.t ∧
    (processBlock sin twoPi p params now buffer).1.rateSmoothed = p.rateSmoothed ∧
    (processBlock sin twoPi p params now buffer).1.depthSmoothed = p.depthSmoothed ∧
    (processBlock sin twoPi p params now buffer).1.shapeSmoothed = p.shapeSmoothed ∧
    (processBlock sin twoPi p params now buffer).1.tremoloRate = p.tremoloRate ∧
    (processBlock sin twoPi p params now buffer).1.lastTapTimeMs = p.lastTapTimeMs := by
  rw [processBlock_of_bypass sin twoPi p params now buffer hb]
  refine ⟨⟨rfl, by simp, ?_⟩, rfl, rfl, rfl, rfl, rfl, rfl⟩
  intro c hc
  rw [List.mem_map] at hc
  obtain ⟨c0, hc0, rfl⟩ := hc
  exact clear_all c0 _ (length_of_mem_cleared _ _ _ _ hwf c0 hc0)

/-- Witness of C3 over the rationals: a bypassed stereo block of two samples
comes out as zeros. -/
theorem processBlock_bypass_witness :
    (processBlock (fun _ => 0) twoPiFloat (Processor.initial : Processor ℚ) ⟨1, 50, 0, 1⟩ 0
        ⟨2, [[1, -1], [1 / 2, 3]]⟩).2.channels = [[0, 0], [0, 0]] := by
  have h := (processBlock_bypass (fun _ => 0) twoPiFloat (Processor.initial : Processor ℚ)
    ⟨1, 50, 0, 1⟩ 0 ⟨2, [[1, -1], [1 / 2, 3]]⟩ (by norm_num)
    (by intro c hc; simp at hc; rcases hc with h | h <;> subst h <;> rfl)).1
  have hlen := h.2.1
  have hall := h.2.2
  generalize (processBlock (fun _ => 0) twoPiFloat (Processor.initial : Processor ℚ)
    ⟨1, 50, 0, 1⟩ 0 ⟨2, [[1, -1], [1 / 2, 3]]⟩).2.channels = cs at hlen hall
  match cs, hlen, hall with
  | [a, b], _, hall =>
    rw [hall a (by simp), hall b (by simp)]
    rfl

end Bypass

section TapWindow

variable {α : Type} [LinearOrderedField α]

/-- One pass of the sample loop neither reads nor writes `lastTapTimeMs`. -/
theorem sampleStep_lastTap (sin : α → α) (twoPi : α) (tap : Bool) (n : Nat)
    (p : Processor α) (cs : List (List α)) (L i : Nat) :
    sampleStep sin twoPi tap n ({ p with lastTapTimeMs := L }, cs) i =
      ({ (sampleStep sin twoPi tap n (p, cs) i).1 with lastTapTimeMs := L },
        (sampleStep sin twoPi tap n (p, cs) i).2) := rfl

theorem foldl_sampleStep_lastTap (sin : α → α) (twoPi : α) (tap : Bool) (n L : Nat)
    (l : List Nat) :
    ∀ (p : Processor α) (cs : List (List α)),
      l.foldl (sampleStep sin twoPi tap n) ({ p with lastTapTimeMs := L }, cs) =
        ({ (l.foldl (sampleStep sin twoPi tap n) (p, cs)).1 with lastTapTimeMs := L },
          (l.foldl (sampleStep sin twoPi tap n) (p, cs)).2) := by
  induction l with
  | nil => intro p cs; rfl
  | cons i is ih =>
    intro p cs
    simp only [List.foldl_cons]
    rw [sampleStep_lastTap, ih]

theorem foldl_sampleStep_keeps_lastTap (sin : α → α) (twoPi : α) (tap : Bool) (n : Nat)
    (l : List Nat) :
    ∀ (st : Processor α × List (List α)),
      (l.foldl (sampleStep sin twoPi tap n) st).1.lastTapTimeMs = st.1.lastTapTimeMs := by
  induction l with
  | nil => intro st; rfl
  | cons i is ih =>
    intro st
    simp only [List.foldl_cons]
    rw [ih]
    rfl

/-- `processBlock` leaves `lastTapTimeMs` as it was. -/
theorem processBlock_keeps_lastTap (sin : α → α) (twoPi : α) (p : Processor α)
    (params : Params α) (now : α) (buffer : AudioBuffer α) :
    (processBlock sin twoPi p params now buffer).1.lastTapTimeMs = p.lastTapTimeMs := by
  unfold processBlock
  simp only []
  split_ifs
  · rfl
  · simp only [sampleLoop]
    rw [foldl_sampleStep_keeps_lastTap]

/-- `processBlock` depends on `lastTapTimeMs` through `useTapTempo` only. -/
theorem processBlock_lastTap (sin : α → α) (twoPi : α) (p : Processor α)
    (params : Params α) (now : α) (buffer : AudioBuffer α) (L : Nat)
    (htap : useTapTempo { p with lastTapTimeMs := L } now = useTapTempo p now) :
    processBlock sin twoPi { p with lastTapTimeMs := L } params now buffer =
      ({ (processBlock sin twoPi p params now buffer).1 with lastTapTimeMs := L },
        (processBlock sin twoPi p params now buffer).2) := by
  unfold processBlock
  simp only [htap]
  split_ifs
  · rfl
  · simp only [sampleLoop]
    have h := foldl_sampleStep_lastTap sin twoPi (useTapTempo p now) buffer.numSamples L
      (List.range buffer.numSamples)
      { p with
        rateSmoothed := p.rateSmoothed.setTargetValue params.RATE
        depthSmoothed := p.depthSmoothed.setTargetValue (params.DEPTH / 100)
        shapeSmoothed := p.shapeSmoothed.setTargetValue params.SHAPE }
      (buffer.channels.mapIdx fun i c =>
        if p.totalNumInputChannels ≤ i ∧ i < p.totalNumOutputChannels then
          clear c 0 buffer.numSamples
        else c)
    rw [h]

/-- The tap-tempo flag is the same for two tap timestamps `L ≤ L'` when the
clock is at least 2000 ms past `L'`, or less than 2000 ms past a tap `L > 0`. -/
theorem useTapTempo_eq (p : Processor α) (L' : Nat) (now : α) (hle : p.lastTapTimeMs ≤ L')
    (h : 2000 ≤ now - (L' : α) ∨
      (0 < p.lastTapTimeMs ∧ now - (p.lastTapTimeMs : α) < 2000)) :
    useTapTempo { p with lastTapTimeMs := L' } now = useTapTempo p now := by
  have hcast : (p.lastTapTimeMs : α) ≤ (L' : α) := by exact_mod_cast hle
  unfold useTapTempo
  rcases h with h | ⟨hpos, hlt⟩
  · have h1 : ¬ (L' > 0 ∧ now - (L' : α) < 2000) := by
      rintro ⟨_, h2⟩
      linarith
    have h2 : ¬ (p.lastTapTimeMs > 0 ∧ now - (p.lastTapTimeMs : α) < 2000) := by
      rintro ⟨_, h2⟩
      linarith
    simp only [h1, h2]
  · have h1 : L' > 0 ∧ now - (L' : α) < 2000 := ⟨by omega, by linarith⟩
    have h2 : p.lastTapTimeMs > 0 ∧ now - (p.lastTapTimeMs : α) < 2000 := ⟨hpos, hlt⟩
    simp only [h1, h2]

/-- A run of blocks is the same for two tap timestamps under which the
tap-tempo flag is the same at every block. -/
theorem processBlocks_lastTap (sin : α → α) (twoPi : α) (L' : Nat) (blocks : List (Block α)) :
    ∀ p : Processor α,
      (∀ b ∈ blocks, useTapTempo { p with lastTapTimeMs := L' } b.now = useTapTempo p b.now) →
      processBlocks sin twoPi { p with lastTapTimeMs := L' } blocks =
        ({ (processBlocks sin twoPi p blocks).1 with lastTapTimeMs := L' },
          (processBlocks sin twoPi p blocks).2) := by
  induction blocks with
  | nil => intro p _; rfl
  | cons b bs ih =>
    intro p h
    have hb := processBlock_lastTap sin twoPi p b.params b.now b.buffer L'
      (h b (List.mem_cons_self b bs))
    have hkeep := processBlock_keeps_lastTap sin twoPi p b.params b.now b.buffer
    have hrest : ∀ b' ∈ bs,
        useTapTempo
            { (processBlock sin twoPi p b.params b.now b.buffer).1 with lastTapTimeMs := L' }
            b'.now =
          useTapTempo (processBlock sin twoPi p b.params b.now b.buffer).1 b'.now := by
      intro b' hb'
      have := h b' (List.mem_cons_of_mem b hb')
      simp only [useTapTempo] at this ⊢
      rw [hkeep]
      exact this
    simp only [processBlocks]
    rw [hb]
    simp only []
    rw [ih _ hrest]

end TapWindow

section TapAudible

variable {α : Type} [LinearOrderedField α] [FloorRing α]

/-- C6, refuted as stated: the resting processor has a tap recorded at 1000 ms;
a tap at 10000 ms (delta 9000 ms, outside the window) keeps `tremoloRate` but
records its timestamp, so a block processed at 10100 ms runs on the tap rate
0.5 instead of the smoothed 1 Hz: the phase after two samples and the second
output sample differ from those of the run without the tap.  At SHAPE 0.5 the
waveform is the triangle and square blend, which does not evaluate the sine. -/
theorem rejected_tap_counterexample :
    (5000 : ℚ) ≤ 10000 - 1000 ∧
      (tapTempo twoPiFloat restingProcessor 10000).tremoloRate = restingProcessor.tremoloRate ∧
      (processBlock (fun _ => 0) twoPiFloat (tapTempo twoPiFloat restingProcessor 10000)
          restingParams 10100 ⟨2, [[1, 1], [1, 1]]⟩).1.t = 1 ∧
      (processBlock (fun _ => 0) twoPiFloat restingProcessor
          restingParams 10100 ⟨2, [[1, 1], [1, 1]]⟩).1.t = 2 * twoPiFloat / 48000 ∧
      (processBlock (fun _ => 0) twoPiFloat (tapTempo twoPiFloat restingProcessor 10000)
          restingParams 10100 ⟨2, [[1, 1], [1, 1]]⟩).2.channels =
        [[3 / 4, 37433233 / 52707180], [3 / 4, 37433233 / 52707180]] ∧
      (processBlock (fun _ => 0) twoPiFloat restingProcessor
          restingParams 10100 ⟨2, [[1, 1], [1, 1]]⟩).2.channels =
        [[3 / 4, 71999 / 96000], [3 / 4, 71999 / 96000]] ∧
      (processBlock (fun _ => 0) twoPiFloat (tapTempo twoPiFloat restingProcessor 10000)
          restingParams 10100 ⟨2, [[1, 1], [1, 1]]⟩).2 ≠
        (processBlock (fun _ => 0) twoPiFloat restingProcessor
          restingParams 10100 ⟨2, [[1, 1], [1, 1]]⟩).2 := by
  have hr : List.range 2 = [0, 1] := rfl
  have hd : toUInt64 ((10000 : ℚ) - ((restingProcessor.lastTapTimeMs : Nat) : ℚ)) = 9000 := by
    have : (10000 : ℚ) - ((restingProcessor.lastTapTimeMs : Nat) : ℚ) = 9000 := by
      norm_num [restingProcessor]
    rw [this]
    unfold toUInt64
    exact Nat.floor_ofNat 9000
  have hnow : toUInt64 (10000 : ℚ) = 10000 := by
    unfold toUInt64
    exact Nat.floor_ofNat 10000
  have htap : tapTempo twoPiFloat restingProcessor 10000 =
      { restingProcessor with lastTapTimeMs := 10000 } := by
    rw [tapTempo_of_rejected twoPiFloat restingProcessor 10000
      (Or.inr (Or.inr (by rw [hd]; norm_num))), hnow]
  have ht1 : (processBlock (fun _ => 0) twoPiFloat (tapTempo twoPiFloat restingProcessor 10000)
      restingParams 10100 ⟨2, [[1, 1], [1, 1]]⟩).1.t = 1 := by
    rw [htap]
    norm_num [processBlock, sampleLoop, sampleStep, hr, restingProcessor, restingParams,
      useTapTempo, currentRate, currentDepth, currentShape, SmoothedValue.setTargetValue,
      SmoothedValue.getNextValue, advancePhase, twoPiFloat]
  have ht2 : (processBlock (fun _ => 0) twoPiFloat restingProcessor
      restingParams 10100 ⟨2, [[1, 1], [1, 1]]⟩).1.t = 2 * twoPiFloat / 48000 := by
    norm_num [processBlock, sampleLoop, sampleStep, hr, restingProcessor, restingParams,
      useTapTempo, currentRate, currentDepth, currentShape, SmoothedValue.setTargetValue,
      SmoothedValue.getNextValue, advancePhase, twoPiFloat]
  have hc1 : (processBlock (fun _ => 0) twoPiFloat (tapTempo twoPiFloat restingProcessor 10000)
      restingParams 10100 ⟨2, [[1, 1], [1, 1]]⟩).2.channels =
      [[3 / 4, 37433233 / 52707180], [3 / 4, 37433233 / 52707180]] := by
    rw [htap]
    norm_num [processBlock, sampleLoop, sampleStep, hr, restingProcessor, restingParams,
      useTapTempo, currentRate, currentDepth, currentShape, SmoothedValue.setTargetValue,
      SmoothedValue.getNextValue, advancePhase, twoPiFloat, List.mapIdx, List.mapIdx.go,
      tremFactor, generateWaveform, triangleWave, squareWave, List.modify, List.modifyTailIdx,
      List.modifyHead]
  have hc2 : (processBlock (fun _ => 0) twoPiFloat restingProcessor
      restingParams 10100 ⟨2, [[1, 1], [1, 1]]⟩).2.channels =
      [[3 / 4, 71999 / 96000], [3 / 4, 71999 / 96000]] := by
    norm_num [processBlock, sampleLoop, sampleStep, hr, restingProcessor, restingParams,
      useTapTempo, currentRate, currentDepth, currentShape, SmoothedValue.setTargetValue,
      SmoothedValue.getNextValue, advancePhase, twoPiFloat, List.mapIdx, List.mapIdx.go,
      tremFactor, generateWaveform, triangleWave, squareWave, List.modify, List.modifyTailIdx,
      List.modifyHead]
  refine ⟨by norm_num, by rw [htap], ht1, ht2, hc1, hc2, ?_⟩
  intro heq
  have hch := congrArg AudioBuffer.channels heq
  rw [hc1, hc2] at hch
  norm_num at hch

/-- C6, amended: a tap at reading `now`, at most 50 ms or at least 5000 ms
after the reading t1 recorded by the previous tap, keeps `tremoloRate` and only
records its timestamp.  For every later run of `processBlock` calls each of
whose clock readings is at least 2000 ms after the recorded timestamp of that
tap, or less than 2000 ms after the previous tap, the tap-tempo flag, the
output buffers and the final processor state (but for `lastTapTimeMs`) are
those of the run without the tap. -/
theorem rejected_tap_inaudible (sin : α → α) (twoPi : α) (p : Processor α) (t1 now : α)
    (blocks : List (Block α)) (hmono : t1 ≤ now) (hrec : p.lastTapTimeMs = toUInt64 t1)
    (hout : now - t1 ≤ 50 ∨ 5000 ≤ now - t1)
    (hclock : ∀ b ∈ blocks, 2000 ≤ b.now - ((toUInt64 now : Nat) : α) ∨
      (0 < p.lastTapTimeMs ∧ b.now - (p.lastTapTimeMs : α) < 2000)) :
    (tapTempo twoPi p now).tremoloRate = p.tremoloRate ∧
      (∀ b ∈ blocks, useTapTempo (tapTempo twoPi p now) b.now = useTapTempo p b.now) ∧
      (processBlocks sin twoPi (tapTempo twoPi p now) blocks).2 =
        (processBlocks sin twoPi p blocks).2 ∧
      (processBlocks sin twoPi (tapTempo twoPi p now) blocks).1 =
        { (processBlocks sin twoPi p blocks).1 with lastTapTimeMs := toUInt64 now } := by
  have htap := tapTempo_of_rejected twoPi p now
    (rejected_of_readings p t1 now (Or.inr ⟨hrec, hout⟩))
  have hle : p.lastTapTimeMs ≤ toUInt64 now := by
    rw [hrec]
    exact Nat.floor_mono hmono
  have hflag : ∀ b ∈ blocks,
      useTapTempo { p with lastTapTimeMs := toUInt64 now } b.now = useTapTempo p b.now :=
    fun b hb => useTapTempo_eq p (toUInt64 now) b.now hle (hclock b hb)
  have hrun := processBlocks_lastTap sin twoPi (toUInt64 now) blocks p hflag
  rw [htap]
  refine ⟨rfl, hflag, ?_, ?_⟩
  · rw [hrun]
  · rw [hrun]

/-- Witness of the amended C6 over the rationals: the tap at 10000 ms of the
counterexample and a block processed at 12000 ms. -/
theorem rejected_tap_inaudible_witness :
    (processBlocks (fun _ => 0) twoPiFloat (tapTempo twoPiFloat restingProcessor 10000)
        [⟨restingParams, 12000, ⟨2, [[1, 1], [1, 1]]⟩⟩]).2 =
      (processBlocks (fun _ => 0) twoPiFloat restingProcessor
        [⟨restingParams, 12000, ⟨2, [[1, 1], [1, 1]]⟩⟩]).2 := by
  have hnow : toUInt64 (10000 : ℚ) = 10000 := by
    unfold toUInt64
    exact Nat.floor_ofNat 10000
  have hL : toUInt64 (1000 : ℚ) = 1000 := by
    unfold toUInt64
    exact Nat.floor_ofNat 1000
  exact (rejected_tap_inaudible (fun _ => 0) twoPiFloat restingProcessor 1000 10000
    [⟨restingParams, 12000, ⟨2, [[1, 1], [1, 1]]⟩⟩] (by norm_num)
    (by rw [hL]; rfl) (Or.inr (by norm_num))
    (by
      intro b hb
      rw [List.mem_singleton] at hb
      subst hb
      left
      rw [hnow]
      norm_num)).2.2.1

end TapAudible

section SmootherBounds

variable {α : Type} [LinearOrderedField α]

/-- A new target inside `[lo, hi]` keeps the smoother inside `[lo, hi]`. -/
theorem SmoothedValue.within_setTargetValue (lo hi : α) (v : SmoothedValue α) (x : α)
    (hv : v.Within lo hi) (hx0 : lo ≤ x) (hx1 : x ≤ hi) :
    (v.setTargetValue x).Within lo hi := by
  unfold SmoothedValue.setTargetValue
  split_ifs with h1 h2
  · exact hv
  · exact ⟨⟨hx0, hx1⟩, ⟨hx0, hx1⟩, fun h => absurd h (lt_irrefl 0)⟩
  · refine ⟨hv.1, ⟨hx0, hx1⟩, fun _ => ?_⟩
    have hpos : (0 : α) < (v.rampSteps : α) := by
      exact_mod_cast Nat.pos_of_ne_zero h2
    show v.current + (v.rampSteps : α) * ((x - v.current) / (v.rampSteps : α)) = x
    rw [mul_div_cancel₀ _ hpos.ne']
    ring

/-- Inside `[lo, hi]` the next smoothed value is in `[lo, hi]`, and the
smoother stays inside. -/
theorem SmoothedValue.within_getNextValue (lo hi : α) (v : SmoothedValue α)
    (hv : v.Within lo hi) :
    (lo ≤ v.getNextValue.1 ∧ v.getNextValue.1 ≤ hi) ∧ v.getNextValue.2.Within lo hi := by
  obtain ⟨hc, ht, hramp⟩ := hv
  unfold SmoothedValue.getNextValue
  split_ifs with h1 h2
  · exact ⟨ht, hc, ht, hramp⟩
  · have hk : 0 < v.stepsRemaining := Nat.pos_of_ne_zero h1
    have hend := hramp hk
    have hcast : ((v.stepsRemaining - 1 : Nat) : α) = (v.stepsRemaining : α) - 1 := by
      rw [Nat.cast_sub hk, Nat.cast_one]
    have hk1 : (0 : α) < (v.stepsRemaining : α) - 1 := by
      rw [← hcast]
      exact_mod_cast h2
    have hkpos : (0 : α) < (v.stepsRemaining : α) := by linarith
    have hlo : lo ≤ v.current + v.perSampleIncrement := by
      have h := mul_nonneg hk1.le (sub_nonneg.mpr hc.1)
      have : 0 ≤ (v.stepsRemaining : α) * (v.current + v.perSampleIncrement - lo) := by
        nlinarith [ht.1]
      have := nonneg_of_mul_nonneg_right this hkpos
      linarith
    have hhi : v.current + v.perSampleIncrement ≤ hi := by
      have h := mul_nonneg hk1.le (sub_nonneg.mpr hc.2)
      have : 0 ≤ (v.stepsRemaining : α) * (hi - (v.current + v.perSampleIncrement)) := by
        nlinarith [ht.2]
      have := nonneg_of_mul_nonneg_right this hkpos
      linarith
    refine ⟨⟨hlo, hhi⟩, ⟨hlo, hhi⟩, ht, fun _ => ?_⟩
    show v.current + v.perSampleIncrement +
      ((v.stepsRemaining - 1 : Nat) : α) * v.perSampleIncrement = v.target
    rw [hcast, ← hend]
    ring
  · refine ⟨ht, ht, ht, fun h => ?_⟩
    exact absurd h h2

/-- With the depth smoother inside [0,1], the `currentDepth` of a pass of the
sample loop is in [0,1] and the pass keeps the smoother inside. -/
theorem currentDepth_unit (sin : α → α) (twoPi : α) (tap : Bool) (n i : Nat)
    (p : Processor α) (cs : List (List α)) (h : p.depthSmoothed.Within 0 1) :
    (0 ≤ currentDepth p ∧ currentDepth p ≤ 1) ∧
      (sampleStep sin twoPi tap n (p, cs) i).1.depthSmoothed.Within 0 1 :=
  SmoothedValue.within_getNextValue 0 1 p.depthSmoothed h

theorem sampleLoop_depth_within (sin : α → α) (twoPi : α) (tap : Bool) (n : Nat)
    (l : List Nat) :
    ∀ st : Processor α × List (List α), st.1.depthSmoothed.Within 0 1 →
      (l.foldl (sampleStep sin twoPi tap n) st).1.depthSmoothed.Within 0 1 := by
  induction l with
  | nil => intro st h; exact h
  | cons i is ih =>
    intro st h
    simp only [List.foldl_cons]
    exact ih _ (currentDepth_unit sin twoPi tap n i st.1 st.2 h).2

/-- With the depth smoother inside [0,1] and DEPTH in [0,100], `processBlock`
keeps the depth smoother inside [0,1]: the violation of C2 comes from the
initial value set by `prepareToPlay` alone. -/
theorem processBlock_depth_within (sin : α → α) (twoPi : α) (p : Processor α)
    (params : Params α) (now : α) (buffer : AudioBuffer α)
    (h : p.depthSmoothed.Within 0 1) (hd0 : 0 ≤ params.DEPTH) (hd1 : params.DEPTH ≤ 100) :
    (processBlock sin twoPi p params now buffer).1.depthSmoothed.Within 0 1 := by
  unfold processBlock
  simp only []
  split_ifs
  · exact h
  · simp only [sampleLoop]
    apply sampleLoop_depth_within
    apply SmoothedValue.within_setTargetValue 0 1 _ _ h
    · positivity
    · rw [div_le_one (by norm_num)]
      exact hd1

end SmootherBounds

section DepthRamp

/-- C2, where the code breaks the bound: with the default parameters (DEPTH
50 %) at 48 kHz, `prepareToPlay` leaves the depth smoother at the raw percent
value 50; the first block sets the target 0.5, so the first `currentDepth` of
the sample loop is 50 - 49.5/480 = 49.896875, outside [0,1], and a one-sample
block of ones comes out as -23.9484375. -/
theorem currentDepth_after_prepare :
    (prepareToPlay (Processor.initial : Processor ℝ) defaultParams 48000).depthSmoothed.current
        = 50 ∧
      currentDepth
          { prepareToPlay (Processor.initial : Processor ℝ) defaultParams 48000 with
            depthSmoothed :=
              (prepareToPlay (Processor.initial : Processor ℝ) defaultParams 48000
                ).depthSmoothed.setTargetValue ((defaultParams : Params ℝ).DEPTH / 100) }
        = 15967 / 320 ∧
      ¬ (15967 / 320 : ℝ) ≤ 1 ∧
      (processBlock Real.sin (2 * Real.pi)
          (prepareToPlay (Processor.initial : Processor ℝ) defaultParams 48000)
          defaultParams 0 ⟨1, [[1], [1]]⟩).1.depthSmoothed.current = 15967 / 320 ∧
      (processBlock Real.sin (2 * Real.pi)
          (prepareToPlay (Processor.initial : Processor ℝ) defaultParams 48000)
          defaultParams 0 ⟨1, [[1], [1]]⟩).2.channels = [[-(15327 / 640)], [-(15327 / 640)]] := by
  have hr : List.range 1 = [0] := rfl
  refine ⟨?_, ?_, by norm_num, ?_, ?_⟩
  · norm_num [prepareToPlay, Processor.initial, defaultParams, SmoothedValue.reset,
      SmoothedValue.setCurrentAndTargetValue]
  · norm_num [prepareToPlay, Processor.initial, defaultParams, currentDepth,
      SmoothedValue.setTargetValue, SmoothedValue.getNextValue, SmoothedValue.reset,
      SmoothedValue.setCurrentAndTargetValue]
  · norm_num [processBlock, sampleLoop, sampleStep, hr, prepareToPlay, Processor.initial,
      defaultParams, useTapTempo, currentRate, currentDepth, currentShape,
      SmoothedValue.setTargetValue, SmoothedValue.getNextValue, SmoothedValue.reset,
      SmoothedValue.setCurrentAndTargetValue]
  · norm_num [processBlock, sampleLoop, sampleStep, hr, prepareToPlay, Processor.initial,
      defaultParams, useTapTempo, currentRate, currentDepth, currentShape,
      SmoothedValue.setTargetValue, SmoothedValue.getNextValue, SmoothedValue.reset,
      SmoothedValue.setCurrentAndTargetValue, advancePhase, List.mapIdx, List.mapIdx.go,
      tremFactor, generateWaveform, triangleWave, squareWave, List.modify, List.modifyTailIdx,
      List.modifyHead]

end DepthRamp

end SharcTremolo
